import Mathlib

/-!
Verification of the text-processing core of `github_release_summarizer`
(`src/github_release_summarizer/analyzer.py`), over a shallow embedding.

Python strings are modelled as `List Char`; the concrete regular-expression
calls of `analyzer.py` are translated into explicit character scans that
follow Python `re` semantics (leftmost match, greedy and lazy quantifier
backtracking, `re.MULTILINE`, `re.IGNORECASE`) for the concrete patterns
appearing in the source.  The HTML document handed to
`get_pull_requests_from_release` is modelled as the ordered event list of
its headings and bullet lists, per the positional reading used by the code
(`find_all` / `find_previous` / `find_next` on a parsed soup).  Python
`list.sort` with a key is a stable sort and is modelled by `List.mergeSort`
on the corresponding boolean comparison.
-/

namespace GRS

/-- Python whitespace test used by `str.strip`, `\s` and `\S` in `re`
patterns, restricted to the ASCII whitespace characters: space, tab,
newline, carriage return, vertical tab and form feed. -/
def isPyWhitespace (c : Char) : Bool :=
  c == ' ' || c == '\t' || c == '\n' || c == '\r' || c == '\x0b' || c == '\x0c'

/-- Python `str.strip()`: drop leading and trailing whitespace. -/
def pyStrip (s : List Char) : List Char :=
  ((s.dropWhile isPyWhitespace).reverse.dropWhile isPyWhitespace).reverse

/-- Maximal run of decimal digits at the front of the string: what the
greedy `\d+` consumes when it succeeds. -/
def digitRun (s : List Char) : List Char := s.takeWhile Char.isDigit

/-! ## Diff Filter: `PageAnalyzer.filter_diff` -/

/-- Literal per-file diff marker `"diff --git"`. -/
def markerL : List Char := "diff --git".toList

/-- Whether index `i` of `s` is a match position of
`re.finditer(r"^diff --git", s, re.MULTILINE)`: the marker starts at `i`
and `i` is the start of a line (index 0 or just after a newline). -/
def isMarkerAt (s : List Char) (i : Nat) : Bool :=
  markerL.isPrefixOf (s.drop i) && (i == 0 || s[i-1]? == some '\n')

/-- List of all marker match positions, in increasing order: the
`positions` list of `filter_diff`. -/
def markerPositions (s : List Char) : List Nat :=
  (List.range s.length).filter (isMarkerAt s)

/-- Slices `s[p_i : p_(i+1)]` of consecutive positions, the last slice
running to the end of the string: the `chunk` values of `filter_diff`. -/
def chunksFrom (s : List Char) : List Nat → List (List Char)
  | [] => []
  | [p] => [s.drop p]
  | p :: q :: rest => ((s.drop p).take (q - p)) :: chunksFrom s (q :: rest)

/-- Python `chunk.split("\n")[0]`: the first line of the chunk. -/
def firstLine (c : List Char) : List Char := c.takeWhile (fun a => a != '\n')

/-- Python truthiness test `not chunk.strip()`: the chunk is empty or
consists of whitespace only. -/
def stripEmpty (c : List Char) : Bool := c.all isPyWhitespace

/-- Shallow embedding of `PageAnalyzer.filter_diff`.  The compiled
exclusion pattern is abstracted into the predicate `p`, where `p line`
holds exactly when `re.search(exclude_pattern, line)` finds a match. -/
def filter_diff (p : List Char → Bool) (s : List Char) : List Char :=
  let positions := markerPositions s
  if positions = [] then s
  else ((chunksFrom s positions).filter
      (fun c => !stripEmpty c && !p (firstLine c))).flatten

/-- Loop of `filter_diff` in the `Except` monad: `search` models
`re.search(exclude_pattern, ·)`, which raises `re.error` at its first call
when the pattern text is syntactically invalid.  Chunks that are
whitespace-only are skipped before the pattern is ever consulted. -/
def filterChunksE (search : List Char → Except String Bool) :
    List (List Char) → Except String (List (List Char))
  | [] => .ok []
  | c :: rest =>
    if stripEmpty c then filterChunksE search rest
    else
      match search (firstLine c) with
      | .error e => .error e
      | .ok b =>
        match filterChunksE search rest with
        | .error e => .error e
        | .ok ks => .ok (if b then ks else c :: ks)

/-- Shallow embedding of `PageAnalyzer.filter_diff` that keeps the
possibility of a pattern-syntax error: the pattern is only consulted
(hence can only fail) inside the per-chunk loop, which is reached only
when at least one marker position exists. -/
def filter_diffE (search : List Char → Except String Bool) (s : List Char) :
    Except String (List Char) :=
  let positions := markerPositions s
  if positions = [] then .ok s
  else (filterChunksE search (chunksFrom s positions)).map List.flatten

/-! ## Release Parser: `PageAnalyzer.get_pull_requests_from_release` -/

/-- Substring test: whether `pat` occurs contiguously inside `s`.  This
is what `re.search` on a literal pattern decides. -/
def containsSub (pat : List Char) : List Char → Bool
  | [] => pat.isEmpty
  | c :: rest => pat.isPrefixOf (c :: rest) || containsSub pat rest

/-- Document events in document order: headings (with their level and
text) and bullet lists (with the text of their items).  This is the
positional document model the code reads off the parsed HTML soup. -/
inductive Event where
  | heading (level : Nat) (text : List Char)
  | list (items : List (List Char))
deriving DecidableEq

/-- Whether an event is a heading of the given level whose text matches
`re.compile(pat)` by `re.search`, i.e. contains `pat` as a substring (the
patterns used, `"Features"`, `"Bug Fixes"`, `"Alpha modules"`, are
literal). -/
def isHeadingMatch (lvl : Nat) (pat : List Char) : Event → Bool
  | .heading l t => l == lvl && containsSub pat t
  | .list _ => false

/-- Indices of `soup.find_all("h<lvl>", string=re.compile(pat))`, in
document order. -/
def headingIdxs (d : List Event) (lvl : Nat) (pat : List Char) : List Nat :=
  (List.range d.length).filter (fun i =>
    match d[i]? with
    | some e => isHeadingMatch lvl pat e
    | none => false)

/-- Truthiness of `section.find_previous("h2", string=re.compile("Alpha
modules"))`: some matching level-2 heading occurs anywhere before index
`i` in document order. -/
def alphaBefore (d : List Event) (i : Nat) : Bool :=
  (List.range i).any (fun j =>
    match d[j]? with
    | some e => isHeadingMatch 2 ("Alpha modules".toList) e
    | none => false)

/-- Items of an event when it is a list, `none` for a heading. -/
def listItems? : Event → Option (List (List Char))
  | .list items => some items
  | .heading _ _ => none

/-- Result of `section.find_next("ul")`: the items of the first list event
strictly after index `i` in document order, headings in between
notwithstanding. -/
def firstListAfter (d : List Event) (i : Nat) : Option (List (List Char)) :=
  (d.drop (i+1)).findSome? listItems?

/-- Whether the suffix starts with `" (#<digits>)"`: the continuation
`" \(#\d+\)"` of the title pattern, with `\d+` greedy (a non-maximal
digit run would have to be followed by a digit, never by `)`). -/
def anchorAt : List Char → Bool
  | ' ' :: '(' :: '#' :: rest =>
      let ds := digitRun rest
      !ds.isEmpty &&
        (match rest.drop ds.length with
         | ')' :: _ => true
         | _ => false)
  | _ => false

/-- Index of the leftmost position of `s` whose suffix satisfies `pred`. -/
def firstPos (pred : List Char → Bool) : List Char → Option Nat
  | [] => if pred [] then some 0 else none
  | c :: rest =>
      if pred (c :: rest) then some 0 else (firstPos pred rest).map (· + 1)

/-- Suffix of `s` after its last newline (all of `s` if none). -/
def lastLineOf (s : List Char) : List Char :=
  (s.reverse.takeWhile (fun c => c != '\n')).reverse

/-- Group 1 of `re.search(r"(.*?) \(#\d+\)", s)`.  The lazy `.*?` cannot
cross a newline, so the leftmost match starts right after the last
newline preceding the first anchor position `q`, the lazy group stops at
`q`, and group 1 is the part of `q`'s line lying before `q`. -/
def searchTitle (s : List Char) : Option (List Char) :=
  match firstPos anchorAt s with
  | none => none
  | some q => some (lastLineOf (s.take q))

/-- Group 1 of `re.search(r"#(\d+)", s)`: the maximal digit run after the
leftmost `#` that is directly followed by a digit. -/
def searchNumber : List Char → Option (List Char)
  | [] => none
  | c :: rest =>
      if c = '#' then
        let ds := digitRun rest
        if ds.isEmpty then searchNumber rest else some ds
      else searchNumber rest

/-- Whether the suffix starts with `#` followed by a digit, i.e. is a
match position of `re.search(r"#(\d+)", ·)`. -/
def hashDigit : List Char → Bool
  | c :: d :: _ => c == '#' && d.isDigit
  | _ => false

/-- Body of the per-item loop of `_get_pull_requests_in_section`: the
item text is kept iff both `re.search` calls succeed, and then the pair
is (title group, digits group). -/
def parseItem (s : List Char) : Option (List Char × List Char) :=
  match searchTitle s, searchNumber s with
  | some t, some n => some (t, n)
  | _, _ => none

/-- Shallow embedding of `PageAnalyzer._get_pull_requests_in_section` for
the heading at index `i`: take the next list in document order (empty
result if none), strip each item text, and keep the items whose text
parses. -/
def sectionPRs (d : List Event) (i : Nat) : List (List Char × List Char) :=
  match firstListAfter d i with
  | none => []
  | some items => items.filterMap (fun item => parseItem (pyStrip item))

/-- Value object corresponding to the `PullRequest` dataclass. -/
structure PullRequest where
  category : String
  title : List Char
  pr_number : List Char
deriving DecidableEq

/-- Literal title pattern of `re.match(r"^update L1 CloudFormation
resource definitions", title)`: a prefix test. -/
def l1Marker : List Char := "update L1 CloudFormation resource definitions".toList

/-- Classification of one pair coming from a Features section. -/
def classifyFeature (isAlpha : Bool) (pr : List Char × List Char) : PullRequest :=
  if l1Marker.isPrefixOf pr.1 then ⟨"L1", pr.1, pr.2⟩
  else if isAlpha then ⟨"alpha feature", pr.1, pr.2⟩
  else ⟨"feature", pr.1, pr.2⟩

/-- Classification of one pair coming from a Bug Fixes section. -/
def classifyBugFix (isAlpha : Bool) (pr : List Char × List Char) : PullRequest :=
  if isAlpha then ⟨"alpha bug fix", pr.1, pr.2⟩ else ⟨"bug fix", pr.1, pr.2⟩

/-- Rank of the `category_order` dictionary.  Only the five constructed
category strings ever reach the lookup (anything else would be a
`KeyError` in Python; the final branch is that fifth key). -/
def category_order (c : String) : Nat :=
  if c = "feature" then 1
  else if c = "L1" then 2
  else if c = "bug fix" then 3
  else if c = "alpha feature" then 4
  else 5

/-- Sort comparison induced by `key=lambda x: category_order[x.category]`. -/
def prLE (a b : PullRequest) : Bool :=
  decide (category_order a.category ≤ category_order b.category)

/-- Entries accumulated by `get_pull_requests_from_release` before the
final sort: every Features section in document order (each item going to
`L1` on the fixed title prefix, else alpha feature or feature according
to `find_previous`), followed by every Bug Fixes section in document
order. -/
def collectedEntries (d : List Event) : List PullRequest :=
  ((headingIdxs d 3 ("Features".toList)).flatMap (fun i =>
      (sectionPRs d i).map (classifyFeature (alphaBefore d i))))
  ++ ((headingIdxs d 3 ("Bug Fixes".toList)).flatMap (fun i =>
      (sectionPRs d i).map (classifyBugFix (alphaBefore d i))))

/-- Shallow embedding of `PageAnalyzer.get_pull_requests_from_release`
on the parsed document (the network fetch and the HTML parse that
produce the event list are external collaborators).  Python `list.sort`
is stable; it is modelled by the stable `List.mergeSort`. -/
def get_pull_requests_from_release (d : List Event) : List PullRequest :=
  (collectedEntries d).mergeSort prLE

/-! ## Text Extractor, contract A: `PageAnalyzer.get_l1_update` -/

/-- Match attempt of `\[\+\]\s+<kw>\s+(\S+)` at the start of `t`: literal
`[+]`, a maximal nonempty whitespace run (shortening it cannot help since
`kw` starts with a non-whitespace character), the literal keyword, again a
maximal nonempty whitespace run, then the maximal nonempty run of
non-whitespace characters, which is group 1.  Returns the group and the
total length of the match. -/
def matchAdditionAt (kw : List Char) (t : List Char) : Option (List Char × Nat) :=
  match t with
  | '[' :: '+' :: ']' :: r1 =>
    let ws1 := r1.takeWhile isPyWhitespace
    if ws1.isEmpty then none
    else
      let r2 := r1.drop ws1.length
      if kw.isPrefixOf r2 then
        let r3 := r2.drop kw.length
        let ws2 := r3.takeWhile isPyWhitespace
        if ws2.isEmpty then none
        else
          let r4 := r3.drop ws2.length
          let tok := r4.takeWhile (fun c => !isPyWhitespace c)
          if tok.isEmpty then none
          else some (tok, 3 + ws1.length + kw.length + ws2.length + tok.length)
      else none
  | _ => none

/-- Left-to-right non-overlapping scan of `re.findall` for the addition
pattern: on a match, emit group 1 and resume after the match; otherwise
advance one character.  Every step consumes at least one character, so
fuel `s.length` makes the fuel bound unreachable. -/
def additionScan (kw : List Char) : Nat → List Char → List (List Char)
  | 0, _ => []
  | _ + 1, [] => []
  | fuel + 1, c :: rest =>
    match matchAdditionAt kw (c :: rest) with
    | some (tok, n) => tok :: additionScan kw fuel ((c :: rest).drop n)
    | none => additionScan kw fuel rest

/-- Shallow embedding of `PageAnalyzer.get_l1_update`: one full
`re.findall` pass for `resource` tokens, then an independent full pass
for `service` tokens, concatenated. -/
def get_l1_update (s : List Char) : List (List Char) :=
  additionScan ("resource".toList) s.length s
    ++ additionScan ("service".toList) s.length s

/-! ## Text Extractor, contract B: `PageAnalyzer.get_related_issues` -/

/-- Alternatives of `close[sd]?|fixe?[sd]?|resolve[sd]?` in the order the
backtracking engine tries them at one position: within each branch the
optional atoms are greedy (present first), branches are tried left to
right.  At most one of two same-branch candidates of equal length can
match at a given position, so trying these in order is the engine's
behaviour. -/
def verbCandidates : List (List Char) :=
  ["closes", "closed", "close", "fixes", "fixed", "fixe", "fixs", "fixd",
   "fix", "resolves", "resolved", "resolve"].map String.toList

/-- Case-insensitive literal test of `v` (given in lowercase) against the
beginning of `t`: `re.IGNORECASE` comparison for the ASCII verbs. -/
def ciStarts (v t : List Char) : Bool := (t.take v.length).map Char.toLower == v

/-- Continuation of one verb alternative `v`: the pattern requires the
literal single space, then `#`, then the greedy nonempty `\d+`, which is
group 2.  Returns group 2 and the total length of the match. -/
def tryVerb (t : List Char) (v : List Char) : Option (List Char × Nat) :=
  if ciStarts v t then
    match t.drop v.length with
    | ' ' :: '#' :: rest2 =>
        let ds := digitRun rest2
        if ds.isEmpty then none else some (ds, v.length + 2 + ds.length)
    | _ => none
  else none

/-- Match attempt of the full related-issue pattern at the start of `t`. -/
def matchClosingAt (t : List Char) : Option (List Char × Nat) :=
  verbCandidates.findSome? (tryVerb t)

/-- Left-to-right non-overlapping `re.findall` scan for the related-issue
pattern; fuel as in `additionScan`. -/
def relatedScan : Nat → List Char → List (List Char)
  | 0, _ => []
  | _ + 1, [] => []
  | fuel + 1, c :: rest =>
    match matchClosingAt (c :: rest) with
    | some (ds, n) => ds :: relatedScan fuel ((c :: rest).drop n)
    | none => relatedScan fuel rest

/-- Shallow embedding of `PageAnalyzer.get_related_issues`: the digit
groups of all matches, in match order. -/
def get_related_issues (s : List Char) : List (List Char) :=
  relatedScan s.length s

/-! ## Auxiliary spec-side data for the claims -/

/-- Kind tag for one addition line, used to build arbitrary interleavings
of resource and service additions. -/
inductive AddKind where
  | resource
  | service
deriving DecidableEq

/-- Keyword of an addition kind. -/
def kindWord : AddKind → List Char
  | .resource => "resource".toList
  | .service => "service".toList

/-- Renders a list of additions as an input document, one
`[+] <kind> <token>` line per addition, in the given (possibly
interleaved) order. -/
def renderAdditions : List (AddKind × List Char) → List Char
  | [] => []
  | (k, tok) :: rest =>
      '[' :: '+' :: ']' :: ' ' :: (kindWord k ++ ' ' :: (tok ++ '\n' :: renderAdditions rest))

/-- Tokens of the additions of one kind, in order. -/
def kindTokens (k : AddKind) (entries : List (AddKind × List Char)) : List (List Char) :=
  entries.filterMap (fun e => if e.1 = k then some e.2 else none)

/-- Well-formedness of rendered addition entries: tokens are nonempty,
whitespace-free (they come from `\S+`) and do not contain `[` (so that a
token cannot start a spurious `[+]` marker). -/
def goodEntries (entries : List (AddKind × List Char)) : Prop :=
  ∀ e ∈ entries, e.2 ≠ [] ∧ ∀ c ∈ e.2, isPyWhitespace c = false ∧ c ≠ '['

/-- Structural invariant of the chunk lists produced by `filter_diff`:
every chunk starts with the marker, contains no further line-start
marker, and every chunk except possibly the final one ends with a
newline (the character that made the next chunk start at a line start). -/
def ChunkBlocks : List (List Char) → Prop
  | [] => True
  | b :: rest => markerL <+: b ∧ (∀ j, 0 < j → isMarkerAt b j = false)
      ∧ (rest ≠ [] → b.getLast? = some '\n') ∧ ChunkBlocks rest

/-- Start offsets of the blocks inside their concatenation. -/
def chunkOffsets : List (List Char) → List Nat
  | [] => []
  | b :: rest => 0 :: (chunkOffsets rest).map (fun x => b.length + x)

/-- Specification of the non-overlapping left-to-right `findall` scan for
the related-issue pattern, written from the spec text: the output lists,
in order of first character position, the digit group of every match of
the pattern; a match is taken at the leftmost position where one starts,
the scan resumes at the first character past that match (matches never
overlap), and each match contributes its own element (duplicates
preserved).  When no position of the text starts a match, the output is
empty. -/
inductive ClosingMatches : List Char → List (List Char) → Prop where
  | nil (s : List Char) :
      (∀ i, matchClosingAt (s.drop i) = none) →
      ClosingMatches s []
  | cons (s : List Char) (i n : Nat) (ds : List Char) (out : List (List Char)) :
      (∀ j, j < i → matchClosingAt (s.drop j) = none) →
      matchClosingAt (s.drop i) = some (ds, n) →
      ClosingMatches (s.drop (i + n)) out →
      ClosingMatches s (ds :: out)

/-! ## Basic marker and chunk lemmas -/

theorem bool_eq_of_iff {a b : Bool} (h : a = true ↔ b = true) : a = b := by
  cases a <;> cases b <;> simp_all

theorem markerL_ne_nil : markerL ≠ [] := by decide

theorem newline_not_mem_markerL : ¬ ('\n' ∈ markerL) := by decide

theorem markerL_length_eq : markerL.length = 10 := by decide

theorem isMarkerAt_of_ge {s : List Char} {i : Nat} (h : s.length ≤ i) :
    isMarkerAt s i = false := by
  unfold isMarkerAt
  rw [List.drop_eq_nil_iff.mpr h]
  have hpf : markerL.isPrefixOf ([] : List Char) = false := by decide
  rw [hpf, Bool.false_and]

theorem lt_length_of_isMarkerAt {s : List Char} {i : Nat}
    (h : isMarkerAt s i = true) : i < s.length := by
  by_contra hge
  rw [isMarkerAt_of_ge (Nat.le_of_not_lt hge)] at h
  simp at h

theorem mem_markerPositions {s : List Char} {i : Nat} :
    i ∈ markerPositions s ↔ isMarkerAt s i = true := by
  constructor
  · intro h
    exact (List.mem_filter.mp h).2
  · intro h
    exact List.mem_filter.mpr
      ⟨List.mem_range.mpr (lt_length_of_isMarkerAt h), h⟩

theorem markerPositions_sorted (s : List Char) :
    (markerPositions s).Pairwise (· < ·) :=
  (List.pairwise_lt_range s.length).filter _

theorem marker_prefix_of_isMarkerAt {s : List Char} {i : Nat}
    (h : isMarkerAt s i = true) : markerL <+: s.drop i := by
  unfold isMarkerAt at h
  exact List.isPrefixOf_iff_prefix.mp ((Bool.and_eq_true _ _).mp h).1

theorem linestart_of_isMarkerAt {s : List Char} {i : Nat}
    (h : isMarkerAt s i = true) (hi : 0 < i) : s[i-1]? = some '\n' := by
  unfold isMarkerAt at h
  have h2 := ((Bool.and_eq_true _ _).mp h).2
  rcases (Bool.or_eq_true _ _).mp h2 with h3 | h3
  · exact absurd (eq_of_beq h3) (Nat.pos_iff_ne_zero.mp hi)
  · exact eq_of_beq h3

theorem isMarkerAt_intro {s : List Char} {i : Nat}
    (hp : markerL <+: s.drop i) (hl : i = 0 ∨ s[i-1]? = some '\n') :
    isMarkerAt s i = true := by
  unfold isMarkerAt
  rw [Bool.and_eq_true, Bool.or_eq_true]
  refine ⟨List.isPrefixOf_iff_prefix.mpr hp, ?_⟩
  rcases hl with h | h
  · subst h; left; rfl
  · right; rw [h]; rfl

theorem stripEmpty_false_of_marker {b : List Char} (h : markerL <+: b) :
    stripEmpty b = false := by
  rcases h with ⟨u, rfl⟩
  unfold stripEmpty
  rw [List.all_append]
  have hml : markerL.all isPyWhitespace = false := by decide
  rw [hml, Bool.false_and]

theorem isMarkerAt_append_inner {b t : List Char} {x : Nat}
    (hx0 : 0 < x) (hxb : x < b.length)
    (hnl : t = [] ∨ b.getLast? = some '\n') :
    isMarkerAt (b ++ t) x = isMarkerAt b x := by
  unfold isMarkerAt
  have hidx : (b ++ t)[x-1]? = b[x-1]? := by
    rw [List.getElem?_append, if_pos (by omega)]
  rw [hidx]
  congr 1
  have hdrop : (b ++ t).drop x = b.drop x ++ t := by
    rw [List.drop_append_eq_append_drop, Nat.sub_eq_zero_of_le (Nat.le_of_lt hxb),
      List.drop_zero]
  rw [hdrop]
  by_cases hlong : 10 ≤ b.length - x
  · apply bool_eq_of_iff
    rw [List.isPrefixOf_iff_prefix, List.isPrefixOf_iff_prefix,
      List.prefix_iff_eq_take, List.prefix_iff_eq_take, markerL_length_eq,
      List.take_append_of_le_length (by rw [List.length_drop]; omega)]
  · have hlt : (b.drop x).length < 10 := by rw [List.length_drop]; omega
    have hright : markerL.isPrefixOf (b.drop x) = false := by
      rw [Bool.eq_false_iff]
      intro htr
      have := (List.isPrefixOf_iff_prefix.mp htr).length_le
      rw [markerL_length_eq] at this
      omega
    rcases hnl with rfl | hnl
    · rw [List.append_nil]
    · have hleft : markerL.isPrefixOf (b.drop x ++ t) = false := by
        rw [Bool.eq_false_iff]
        intro htr
        have hpre := List.isPrefixOf_iff_prefix.mp htr
        rw [List.prefix_iff_eq_take, markerL_length_eq,
          List.take_append_eq_append_take,
          List.take_of_length_le (Nat.le_of_lt hlt)] at hpre
        have hsub : b.drop x <+: markerL := ⟨_, hpre.symm⟩
        have hmem : '\n' ∈ b.drop x := by
          apply List.getElem?_mem (n := b.length - 1 - x)
          rw [List.getElem?_drop]
          rw [List.getLast?_eq_getElem?] at hnl
          rw [show x + (b.length - 1 - x) = b.length - 1 by omega]
          exact hnl
        exact newline_not_mem_markerL (hsub.sublist.subset hmem)
      rw [hleft, hright]

theorem isMarkerAt_append_shift {b t : List Char} {k : Nat}
    (hb : b ≠ []) (hnl : t ≠ [] → b.getLast? = some '\n') (hk : k < t.length) :
    isMarkerAt (b ++ t) (b.length + k) = isMarkerAt t k := by
  have ht : t ≠ [] := by
    intro h
    subst h
    simp at hk
  have hbl : 0 < b.length := List.length_pos.mpr hb
  unfold isMarkerAt
  have hdrop : (b ++ t).drop (b.length + k) = t.drop k := List.drop_append k
  rw [hdrop]
  congr 1
  cases k with
  | zero =>
    have h1 : ((b.length + 0) == 0) = false := by
      have h0 : b.length + 0 ≠ 0 := by omega
      simpa using h0
    rw [h1, Bool.false_or]
    have h2 : (b ++ t)[b.length + 0 - 1]? = some '\n' := by
      rw [Nat.add_zero, List.getElem?_append, if_pos (by omega)]
      rw [← List.getLast?_eq_getElem?]
      exact hnl ht
    rw [h2]
    rfl
  | succ j =>
    have h1 : (b ++ t)[b.length + (j + 1) - 1]? = t[j]? := by
      rw [List.getElem?_append, if_neg (by omega)]
      congr 1
      omega
    rw [h1]
    rfl

theorem markerPositions_block_append (b t : List Char)
    (hpre : markerL <+: b) (hin : ∀ j, 0 < j → isMarkerAt b j = false)
    (hnl : t ≠ [] → b.getLast? = some '\n') :
    markerPositions (b ++ t)
      = 0 :: (markerPositions t).map (fun x => b.length + x) := by
  have hb : b ≠ [] := by
    intro h
    subst h
    exact markerL_ne_nil (List.prefix_nil.mp hpre)
  have hbl : 0 < b.length := List.length_pos.mpr hb
  unfold markerPositions
  rw [List.length_append, List.range_add, List.filter_append]
  have hfst : (List.range b.length).filter (isMarkerAt (b ++ t)) = [0] := by
    obtain ⟨m, hm⟩ : ∃ m, b.length = m + 1 := ⟨b.length - 1, by omega⟩
    rw [hm, List.range_succ_eq_map, List.filter_cons]
    have h0 : isMarkerAt (b ++ t) 0 = true := by
      apply isMarkerAt_intro
      · rw [List.drop_zero]
        exact hpre.trans (List.prefix_append b t)
      · exact Or.inl rfl
    rw [if_pos h0]
    have hrest : (List.map Nat.succ (List.range m)).filter (isMarkerAt (b ++ t)) = [] := by
      rw [List.filter_eq_nil_iff]
      intro a ha
      obtain ⟨j, hj, rfl⟩ := List.mem_map.mp ha
      have hjm : j < m := List.mem_range.mp hj
      have heq : isMarkerAt (b ++ t) (Nat.succ j) = isMarkerAt b (Nat.succ j) := by
        apply isMarkerAt_append_inner (by omega) (by omega)
        by_cases ht : t = []
        · exact Or.inl ht
        · exact Or.inr (hnl ht)
      rw [heq, hin (Nat.succ j) (by omega)]
      simp
    rw [hrest]
  rw [hfst]
  have hsnd : ((List.range t.length).map (fun x => b.length + x)).filter (isMarkerAt (b ++ t))
      = ((List.range t.length).filter (isMarkerAt t)).map (fun x => b.length + x) := by
    rw [List.filter_map]
    congr 1
    apply List.filter_congr
    intro k hk
    exact isMarkerAt_append_shift hb hnl (List.mem_range.mp hk)
  rw [hsnd]
  rfl

theorem chunksFrom_append_shift (b t : List Char) :
    ∀ ps : List Nat,
      chunksFrom (b ++ t) (ps.map (fun x => b.length + x)) = chunksFrom t ps
  | [] => rfl
  | [p] => by
      simp only [List.map_cons, List.map_nil, chunksFrom]
      rw [List.drop_append]
  | p :: q :: rest => by
      simp only [List.map_cons, chunksFrom]
      rw [List.drop_append]
      have harith : b.length + q - (b.length + p) = q - p := by omega
      rw [harith]
      have htail := chunksFrom_append_shift b t (q :: rest)
      simp only [List.map_cons] at htail
      rw [htail]

theorem markerPositions_flatten :
    ∀ bs : List (List Char), ChunkBlocks bs →
      markerPositions bs.flatten = chunkOffsets bs
  | [], _ => rfl
  | b :: rest, h => by
      obtain ⟨h1, h2, h3, h4⟩ := h
      rw [List.flatten_cons]
      rw [markerPositions_block_append b rest.flatten h1 h2
        (fun hne => h3 (by intro hr; subst hr; exact hne List.flatten_nil))]
      rw [markerPositions_flatten rest h4]
      rfl

theorem chunksFrom_flatten :
    ∀ bs : List (List Char), ChunkBlocks bs →
      chunksFrom bs.flatten (chunkOffsets bs) = bs
  | [], _ => rfl
  | b :: rest, h => by
      obtain ⟨h1, h2, h3, h4⟩ := h
      rw [List.flatten_cons]
      cases rest with
      | nil =>
          rw [List.flatten_nil, List.append_nil]
          show [b.drop 0] = [b]
          rw [List.drop_zero]
      | cons c rest' =>
          have hmap : (chunkOffsets (c :: rest')).map (fun x => b.length + x)
              = (b.length + 0)
                :: ((chunkOffsets rest').map (fun x => c.length + x)).map
                  (fun x => b.length + x) := rfl
          show chunksFrom (b ++ (c :: rest').flatten)
              (0 :: (chunkOffsets (c :: rest')).map (fun x => b.length + x))
            = b :: c :: rest'
          rw [hmap]
          show ((b ++ (c :: rest').flatten).drop 0).take (b.length + 0 - 0)
              :: chunksFrom (b ++ (c :: rest').flatten)
                ((b.length + 0)
                  :: ((chunkOffsets rest').map (fun x => c.length + x)).map
                    (fun x => b.length + x))
            = b :: c :: rest'
          congr 1
          · rw [List.drop_zero, Nat.add_zero, Nat.sub_zero, List.take_left]
          · rw [← hmap, chunksFrom_append_shift]
            exact chunksFrom_flatten (c :: rest') h4

theorem chunkBlocks_of_positions (s : List Char) :
    ∀ ps : List Nat,
      (∀ x ∈ ps, isMarkerAt s x = true) →
      ps.Pairwise (· < ·) →
      (∀ x, isMarkerAt s x = true → x ∈ ps ∨ ∀ y ∈ ps, x < y) →
      ChunkBlocks (chunksFrom s ps)
  | [], _, _, _ => trivial
  | [p], hmem, _, hcomp => by
      have hp : isMarkerAt s p = true := hmem p (by simp)
      refine ⟨marker_prefix_of_isMarkerAt hp, ?_, fun h => absurd rfl h, trivial⟩
      intro j hj
      cases hcase : isMarkerAt (s.drop p) j with
      | false => rfl
      | true =>
        exfalso
        have hpre2 : markerL <+: s.drop (p + j) := by
          have h1 := marker_prefix_of_isMarkerAt hcase
          rwa [List.drop_drop] at h1
        have hls : s[(p + j) - 1]? = some '\n' := by
          have h2 := linestart_of_isMarkerAt hcase hj
          rwa [List.getElem?_drop, show p + (j - 1) = p + j - 1 by omega] at h2
        have hmk : isMarkerAt s (p + j) = true := isMarkerAt_intro hpre2 (Or.inr hls)
        rcases hcomp (p + j) hmk with hin | hlt
        · have : p + j = p := by simpa using hin
          omega
        · have := hlt p (by simp)
          omega
  | p :: q :: rest, hmem, hsort, hcomp => by
      have hp : isMarkerAt s p = true := hmem p (by simp)
      have hq : isMarkerAt s q = true := hmem q (by simp)
      have hpq : p < q := (List.pairwise_cons.mp hsort).1 q (by simp)
      have hqlen : q < s.length := lt_length_of_isMarkerAt hq
      obtain ⟨u, hu⟩ := marker_prefix_of_isMarkerAt hp
      have hgap : 10 ≤ q - p := by
        by_contra hlt10
        have hnlq : s[q - 1]? = some '\n' := linestart_of_isMarkerAt hq (by omega)
        have hdx : (s.drop p)[q - 1 - p]? = some '\n' := by
          rw [List.getElem?_drop, show p + (q - 1 - p) = q - 1 by omega]
          exact hnlq
        rw [← hu, List.getElem?_append, if_pos (by rw [markerL_length_eq]; omega)] at hdx
        exact newline_not_mem_markerL (List.getElem?_mem hdx)
      have hblen : ((s.drop p).take (q - p)).length = q - p := by
        rw [List.length_take, List.length_drop]
        omega
      refine ⟨?_, ?_, ?_, ?_⟩
      · rw [← hu, List.take_append_eq_append_take,
          List.take_of_length_le (by rw [markerL_length_eq]; omega)]
        exact List.prefix_append _ _
      · intro j hj
        cases hcase : isMarkerAt ((s.drop p).take (q - p)) j with
        | false => rfl
        | true =>
          exfalso
          have hjlt : j < q - p := by
            have h0 := lt_length_of_isMarkerAt hcase
            rwa [hblen] at h0
          have hpre2 : markerL <+: s.drop (p + j) := by
            have h1 := marker_prefix_of_isMarkerAt hcase
            rw [List.drop_take, List.drop_drop] at h1
            exact h1.trans (List.take_prefix _ _)
          have hls : s[(p + j) - 1]? = some '\n' := by
            have h2 := linestart_of_isMarkerAt hcase hj
            rwa [List.getElem?_take_of_lt (by omega), List.getElem?_drop,
              show p + (j - 1) = p + j - 1 by omega] at h2
          have hmk : isMarkerAt s (p + j) = true := isMarkerAt_intro hpre2 (Or.inr hls)
          rcases hcomp (p + j) hmk with hin | hlt
          · rcases List.mem_cons.mp hin with h | h
            · omega
            rcases List.mem_cons.mp h with h | h
            · omega
            · have := (List.pairwise_cons.mp (List.Pairwise.of_cons hsort)).1 _ h
              omega
          · have := hlt p (by simp)
            omega
      · intro _
        rw [List.getLast?_eq_getElem?, hblen,
          List.getElem?_take_of_lt (by omega), List.getElem?_drop,
          show p + (q - p - 1) = q - 1 by omega]
        exact linestart_of_isMarkerAt hq (by omega)
      · apply chunkBlocks_of_positions s (q :: rest)
        · intro x hx
          exact hmem x (List.mem_cons_of_mem p hx)
        · exact List.Pairwise.of_cons hsort
        · intro x hx
          rcases hcomp x hx with hin | hlt
          · rcases List.mem_cons.mp hin with h | h
            · right
              intro y hy
              subst h
              rcases List.mem_cons.mp hy with rfl | hy2
              · exact hpq
              · have := (List.pairwise_cons.mp (List.Pairwise.of_cons hsort)).1 _ hy2
                omega
            · exact Or.inl h
          · right
            intro y hy
            exact hlt y (List.mem_cons_of_mem p hy)

theorem chunkBlocks_marker (s : List Char) :
    ChunkBlocks (chunksFrom s (markerPositions s)) := by
  apply chunkBlocks_of_positions
  · intro x hx
    exact mem_markerPositions.mp hx
  · exact markerPositions_sorted s
  · intro x hx
    exact Or.inl (mem_markerPositions.mpr hx)

theorem chunkBlocks_mem_marker :
    ∀ bs : List (List Char), ChunkBlocks bs → ∀ c ∈ bs, markerL <+: c
  | [], _, c, hc => absurd hc (List.not_mem_nil c)
  | b :: rest, h, c, hc => by
      obtain ⟨h1, _, _, h4⟩ := h
      rcases List.mem_cons.mp hc with rfl | hc2
      · exact h1
      · exact chunkBlocks_mem_marker rest h4 c hc2

theorem chunkBlocks_filter (f : List Char → Bool) :
    ∀ bs : List (List Char), ChunkBlocks bs → ChunkBlocks (bs.filter f)
  | [], _ => trivial
  | b :: rest, h => by
      obtain ⟨h1, h2, h3, h4⟩ := h
      rw [List.filter_cons]
      by_cases hf : f b = true
      · rw [if_pos hf]
        refine ⟨h1, h2, ?_, chunkBlocks_filter f rest h4⟩
        intro hne
        apply h3
        intro hr
        subst hr
        exact hne rfl
      · rw [if_neg hf]
        exact chunkBlocks_filter f rest h4

theorem filter_diff_flatten (p : List Char → Bool) :
    ∀ bs : List (List Char), ChunkBlocks bs →
      filter_diff p bs.flatten = (bs.filter (fun c => !p (firstLine c))).flatten := by
  intro bs h
  cases bs with
  | nil => rfl
  | cons b rest =>
      simp only [filter_diff]
      rw [markerPositions_flatten (b :: rest) h]
      have hne : chunkOffsets (b :: rest) ≠ [] := by
        intro hx
        exact List.cons_ne_nil _ _ hx
      rw [if_neg hne, chunksFrom_flatten (b :: rest) h]
      congr 1
      apply List.filter_congr
      intro c hc
      rw [stripEmpty_false_of_marker (chunkBlocks_mem_marker (b :: rest) h c hc)]
      rfl

theorem flatten_chunksFrom (s : List Char) :
    ∀ (p : Nat) (ps : List Nat), (p :: ps).Pairwise (· < ·) →
      (chunksFrom s (p :: ps)).flatten = s.drop p
  | p, [], _ => by
      rw [show chunksFrom s [p] = [s.drop p] from rfl, List.flatten_cons,
        List.flatten_nil, List.append_nil]
  | p, q :: ps, hsort => by
      have hpq : p < q := (List.pairwise_cons.mp hsort).1 q (by simp)
      show (((s.drop p).take (q - p)) :: chunksFrom s (q :: ps)).flatten = s.drop p
      rw [List.flatten_cons, flatten_chunksFrom s q ps (List.Pairwise.of_cons hsort)]
      have hdd : s.drop q = (s.drop p).drop (q - p) := by
        rw [List.drop_drop]
        congr 1
        omega
      rw [hdd, List.take_append_drop]

theorem filter_diff_eq_flatten_filter (p : List Char → Bool) (s : List Char)
    (h : markerPositions s ≠ []) :
    filter_diff p s
      = ((chunksFrom s (markerPositions s)).filter
          (fun c => !p (firstLine c))).flatten := by
  simp only [filter_diff]
  rw [if_neg h]
  congr 1
  apply List.filter_congr
  intro c hc
  rw [stripEmpty_false_of_marker
    (chunkBlocks_mem_marker _ (chunkBlocks_marker s) c hc)]
  rfl

theorem filterChunksE_ok (p : List Char → Bool) :
    ∀ cs : List (List Char),
      filterChunksE (fun l => .ok (p l)) cs
        = .ok (cs.filter (fun c => !stripEmpty c && !p (firstLine c)))
  | [] => rfl
  | c :: rest => by
      simp only [filterChunksE]
      rw [List.filter_cons]
      by_cases hs : stripEmpty c = true
      · rw [if_pos hs, if_neg (by simp [hs]), filterChunksE_ok p rest]
      · have hs' : stripEmpty c = false := Bool.eq_false_iff.mpr hs
        rw [if_neg hs]
        show (match filterChunksE (fun l => .ok (p l)) rest with
          | .error e => (.error e : Except String (List (List Char)))
          | .ok ks => .ok (if p (firstLine c) then ks else c :: ks)) = _
        rw [filterChunksE_ok p rest]
        show Except.ok (if p (firstLine c) then _ else _) = _
        by_cases hp : p (firstLine c) = true
        · rw [if_pos hp, if_neg (by simp [hs', hp])]
        · have hp' : p (firstLine c) = false := Bool.eq_false_iff.mpr hp
          rw [if_neg (by simp [hp']), if_pos (by simp [hs', hp'])]

theorem filter_diffE_ok (p : List Char → Bool) (s : List Char) :
    filter_diffE (fun l => .ok (p l)) s = .ok (filter_diff p s) := by
  simp only [filter_diffE, filter_diff]
  by_cases h : markerPositions s = []
  · rw [if_pos h, if_pos h]
  · rw [if_neg h, if_neg h, filterChunksE_ok]
    rfl

/-! ## Claim theorems about the Diff Filter -/

/-- Claim C4 (confirmed): for every diff text and every exclusion
predicate, if no line begins with the literal marker then `filter_diff`
returns the input unchanged, and otherwise the result is exactly the
concatenation, in original order with no separator, of those
marker-delimited chunks whose first line the exclusion predicate does not
match (the whitespace-only guard of the code never fires, since every
chunk starts with the marker). -/
theorem filter_diff_chunks_spec (p : List Char → Bool) (s : List Char) :
    (markerPositions s = [] ↔ ∀ i, isMarkerAt s i = false)
    ∧ (markerPositions s = [] → filter_diff p s = s)
    ∧ (markerPositions s ≠ [] → filter_diff p s
        = ((chunksFrom s (markerPositions s)).filter
            (fun c => !p (firstLine c))).flatten) := by
  refine ⟨⟨?_, ?_⟩, ?_, filter_diff_eq_flatten_filter p s⟩
  · intro h i
    cases hcase : isMarkerAt s i with
    | false => rfl
    | true =>
      exfalso
      have hmem := mem_markerPositions.mpr hcase
      rw [h] at hmem
      exact List.not_mem_nil i hmem
  · intro h
    unfold markerPositions
    rw [List.filter_eq_nil_iff]
    intro a _
    rw [h a]
    simp
  · intro h
    simp only [filter_diff]
    rw [if_pos h]

/-- Witness for C4 on a concrete two-chunk diff. -/
theorem filter_diff_chunks_spec_witness :
    markerPositions ("diff --git a b\nx\ndiff --git c d\ny\n".toList) ≠ []
    ∧ filter_diff (fun _ => false) ("diff --git a b\nx\ndiff --git c d\ny\n".toList)
      = ((chunksFrom ("diff --git a b\nx\ndiff --git c d\ny\n".toList)
          (markerPositions ("diff --git a b\nx\ndiff --git c d\ny\n".toList))).filter
            (fun c => !(fun _ : List Char => false) (firstLine c))).flatten :=
  ⟨by decide,
    (filter_diff_chunks_spec (fun _ => false)
      ("diff --git a b\nx\ndiff --git c d\ny\n".toList)).2.2 (by decide)⟩

/-- Claim C9 (confirmed): the Diff Filter is idempotent; re-filtering an
already-filtered diff with the same pattern is a no-op. -/
theorem filter_diff_idempotent (p : List Char → Bool) (s : List Char) :
    filter_diff p (filter_diff p s) = filter_diff p s := by
  by_cases h : markerPositions s = []
  · have h1 : filter_diff p s = s := by
      simp only [filter_diff]
      rw [if_pos h]
    rw [h1]
    exact h1
  · have hcb : ChunkBlocks (chunksFrom s (markerPositions s)) := chunkBlocks_marker s
    rw [filter_diff_eq_flatten_filter p s h,
      filter_diff_flatten p _ (chunkBlocks_filter _ _ hcb)]
    congr 1
    apply List.filter_eq_self.mpr
    intro c hc
    exact (List.mem_filter.mp hc).2

/-- Claim C10 (confirmed): when the diff text contains a marker, the text
preceding the first marker position is dropped from the output even when
the exclusion pattern matches nothing: the output is exactly the suffix
of the input starting at the first marker. -/
theorem filter_diff_drops_preamble (s : List Char) (q : Nat) (qs : List Nat)
    (h : markerPositions s = q :: qs) :
    filter_diff (fun _ => false) s = s.drop q := by
  have hsort : (q :: qs).Pairwise (· < ·) := by
    rw [← h]
    exact markerPositions_sorted s
  rw [filter_diff_eq_flatten_filter _ s (by rw [h]; exact List.cons_ne_nil _ _), h]
  have hall : (chunksFrom s (q :: qs)).filter (fun c => !(fun _ : List Char => false) (firstLine c))
      = chunksFrom s (q :: qs) :=
    List.filter_eq_self.mpr (fun c _ => rfl)
  rw [hall]
  exact flatten_chunksFrom s q qs hsort

/-- Witness for C10: a preamble before the first marker disappears. -/
theorem filter_diff_drops_preamble_witness :
    markerPositions ("hello\ndiff --git a b\nx\n".toList) = 6 :: []
    ∧ filter_diff (fun _ => false) ("hello\ndiff --git a b\nx\n".toList)
      = ("hello\ndiff --git a b\nx\n".toList).drop 6 :=
  ⟨by decide, filter_diff_drops_preamble ("hello\ndiff --git a b\nx\n".toList) 6 [] (by decide)⟩

/-- Claim C5 (corrected): an invalid exclusion pattern (modelled by a
`search` that fails at every call, as `re.search` does when compiling an
invalid pattern) makes `filter_diff` fail with that very error,
propagated unmodified — but only when the diff text contains at least one
line-start marker, because otherwise the pattern is never consulted.
With a valid pattern the function never fails. -/
theorem filter_diffE_error_propagation
    (search : List Char → Except String Bool) (e : String)
    (p : List Char → Bool) (s : List Char) :
    ((∀ l, search l = .error e) → markerPositions s ≠ [] →
      filter_diffE search s = .error e)
    ∧ filter_diffE (fun l => .ok (p l)) s = .ok (filter_diff p s) := by
  refine ⟨?_, filter_diffE_ok p s⟩
  intro herr hne
  simp only [filter_diffE]
  rw [if_neg hne]
  obtain ⟨q, qs, hq⟩ : ∃ q qs, markerPositions s = q :: qs := by
    cases hse : markerPositions s with
    | nil => exact absurd hse hne
    | cons a l => exact ⟨a, l, rfl⟩
  rw [hq]
  obtain ⟨c, cs, hc⟩ : ∃ c cs, chunksFrom s (q :: qs) = c :: cs := by
    cases qs with
    | nil => exact ⟨s.drop q, [], rfl⟩
    | cons r rs => exact ⟨_, _, rfl⟩
  have hpre : markerL <+: c := by
    have hcb := chunkBlocks_marker s
    rw [hq, hc] at hcb
    exact hcb.1
  rw [hc]
  simp only [filterChunksE]
  rw [if_neg (by rw [stripEmpty_false_of_marker hpre]; simp), herr (firstLine c)]
  rfl

/-- Witness for C5 on a concrete marker-containing diff. -/
theorem filter_diffE_error_propagation_witness :
    markerPositions ("diff --git a b\nx\n".toList) ≠ []
    ∧ filter_diffE (fun _ => (.error "bad" : Except String Bool))
        ("diff --git a b\nx\n".toList) = .error "bad" :=
  ⟨by decide,
    (filter_diffE_error_propagation (fun _ => .error "bad") "bad"
      (fun _ => false) ("diff --git a b\nx\n".toList)).1 (fun _ => rfl) (by decide)⟩

/-- Counterexample to C5 as stated: on a diff text with no marker, an
invalid pattern raises nothing — the input is returned unchanged, because
the code returns before its first `re.search` call. -/
theorem filter_diffE_no_marker_no_error :
    filter_diffE (fun _ => (.error "unterminated character set" : Except String Bool))
      ("hello".toList) = .ok ("hello".toList) := rfl

/-! ## Release parser lemmas -/

theorem alphaBefore_iff (d : List Event) (i : Nat) :
    alphaBefore d i = true
      ↔ ∃ j, j < i ∧ ∃ e, d[j]? = some e
          ∧ isHeadingMatch 2 ("Alpha modules".toList) e = true := by
  unfold alphaBefore
  rw [List.any_eq_true]
  constructor
  · rintro ⟨j, hj, hp⟩
    refine ⟨j, List.mem_range.mp hj, ?_⟩
    cases he : d[j]? with
    | none =>
        rw [he] at hp
        simp at hp
    | some e =>
        rw [he] at hp
        exact ⟨e, rfl, hp⟩
  · rintro ⟨j, hj, e, he, hm⟩
    refine ⟨j, List.mem_range.mpr hj, ?_⟩
    rw [he]
    exact hm

theorem findSome?_listItems_split :
    ∀ (l : List Event) (b : List (List Char)),
      l.findSome? listItems? = some b →
      ∃ k, k < l.length ∧ l[k]? = some (.list b)
        ∧ ∀ m, m < k → ∀ items, l[m]? ≠ some (.list items)
  | [], _, h => by cases h
  | e :: rest, b, h => by
      rw [List.findSome?_cons] at h
      cases he : listItems? e with
      | some items =>
          rw [he] at h
          have hb : items = b := by
            cases h
            rfl
          subst hb
          have hee : e = .list items := by
            cases e with
            | heading lvl t => simp [listItems?] at he
            | list its =>
                simp [listItems?] at he
                rw [he]
          refine ⟨0, by simp, by rw [List.getElem?_cons_zero, hee], ?_⟩
          intro m hm
          exact absurd hm (Nat.not_lt_zero m)
      | none =>
          rw [he] at h
          obtain ⟨k, hk, hke, hkm⟩ := findSome?_listItems_split rest b h
          refine ⟨k + 1, by simpa using hk, by simpa using hke, ?_⟩
          intro m hm items
          cases m with
          | zero =>
              rw [List.getElem?_cons_zero]
              intro hc
              have hee : e = .list items := by
                cases hc
                rfl
              rw [hee] at he
              simp [listItems?] at he
          | succ m' =>
              rw [List.getElem?_cons_succ]
              exact hkm m' (by omega) items

theorem firstPos_none_iff (pred : List Char → Bool) :
    ∀ s : List Char, firstPos pred s = none ↔ ∀ i, pred (s.drop i) = false
  | [] => by
      simp only [firstPos]
      constructor
      · intro h i
        rw [List.drop_nil]
        by_cases hp : pred [] = true
        · rw [if_pos hp] at h
          cases h
        · exact Bool.eq_false_iff.mpr hp
      · intro h
        have h0 := h 0
        rw [List.drop_nil] at h0
        rw [if_neg (by simp [h0])]
  | c :: rest => by
      simp only [firstPos]
      by_cases hp : pred (c :: rest) = true
      · rw [if_pos hp]
        constructor
        · intro h
          cases h
        · intro hall
          have h0 := hall 0
          rw [List.drop_zero, hp] at h0
          cases h0
      · rw [if_neg hp]
        constructor
        · intro h i
          cases i with
          | zero =>
              rw [List.drop_zero]
              exact Bool.eq_false_iff.mpr hp
          | succ j =>
              rw [List.drop_succ_cons]
              have hnone : firstPos pred rest = none := by
                cases hf : firstPos pred rest with
                | none => rfl
                | some q =>
                    rw [hf] at h
                    simp at h
              exact ((firstPos_none_iff pred rest).mp hnone) j
        · intro hall
          have hnone : firstPos pred rest = none :=
            (firstPos_none_iff pred rest).mpr (fun j => by
              have hj := hall (j+1)
              rwa [List.drop_succ_cons] at hj)
          rw [hnone]
          rfl

theorem firstPos_some (pred : List Char → Bool) :
    ∀ (s : List Char) (q : Nat), firstPos pred s = some q →
      pred (s.drop q) = true ∧ ∀ j, j < q → pred (s.drop j) = false
  | [], q, h => by
      simp only [firstPos] at h
      by_cases hp : pred [] = true
      · rw [if_pos hp] at h
        cases h
        exact ⟨hp, fun j hj => absurd hj (Nat.not_lt_zero j)⟩
      · rw [if_neg hp] at h
        cases h
  | c :: rest, q, h => by
      simp only [firstPos] at h
      by_cases hp : pred (c :: rest) = true
      · rw [if_pos hp] at h
        cases h
        exact ⟨hp, fun j hj => absurd hj (Nat.not_lt_zero j)⟩
      · rw [if_neg hp] at h
        cases hf : firstPos pred rest with
        | none =>
            rw [hf] at h
            cases h
        | some r =>
            rw [hf] at h
            have hq : q = r + 1 := by
              simp at h
              omega
            subst hq
            obtain ⟨h1, h2⟩ := firstPos_some pred rest r hf
            constructor
            · rwa [List.drop_succ_cons]
            · intro j hj
              cases j with
              | zero =>
                  rw [List.drop_zero]
                  exact Bool.eq_false_iff.mpr hp
              | succ j' =>
                  rw [List.drop_succ_cons]
                  exact h2 j' (by omega)

theorem digitRun_head_false {d : Char} {r : List Char}
    (hd : (digitRun (d :: r)).isEmpty = true) : d.isDigit = false := by
  unfold digitRun at hd
  rw [List.takeWhile_cons] at hd
  by_cases hx : d.isDigit = true
  · rw [if_pos hx] at hd
    simp at hd
  · exact Bool.eq_false_iff.mpr hx

theorem digitRun_head_true {d : Char} {r : List Char}
    (hd : (digitRun (d :: r)).isEmpty = false) : d.isDigit = true := by
  unfold digitRun at hd
  rw [List.takeWhile_cons] at hd
  by_cases hx : d.isDigit = true
  · exact hx
  · rw [if_neg hx] at hd
    simp at hd

theorem hashDigit_cons_false_of_ne {c : Char} {r : List Char} (hc : c ≠ '#') :
    hashDigit (c :: r) = false := by
  cases r with
  | nil => rfl
  | cons d r' =>
      show (c == '#' && d.isDigit) = false
      rw [beq_eq_false_iff_ne.mpr hc, Bool.false_and]

theorem hashDigit_cons_false_of_nondigit {r : List Char}
    (hd : (digitRun r).isEmpty = true) : hashDigit ('#' :: r) = false := by
  cases r with
  | nil => rfl
  | cons d r' =>
      show ('#' == '#' && d.isDigit) = false
      rw [digitRun_head_false hd]
      rfl

theorem searchNumber_none_iff :
    ∀ s : List Char, searchNumber s = none ↔ ∀ j, hashDigit (s.drop j) = false
  | [] => by
      constructor
      · intro _ j
        rw [List.drop_nil]
        rfl
      · intro _
        rfl
  | c :: rest => by
      simp only [searchNumber]
      by_cases hc : c = '#'
      · rw [if_pos hc]
        by_cases hd : (digitRun rest).isEmpty = true
        · rw [if_pos hd]
          constructor
          · intro h j
            cases j with
            | zero =>
                rw [List.drop_zero]
                subst hc
                exact hashDigit_cons_false_of_nondigit hd
            | succ j =>
                rw [List.drop_succ_cons]
                exact (searchNumber_none_iff rest).mp h j
          · intro hall
            apply (searchNumber_none_iff rest).mpr
            intro j
            have hj := hall (j+1)
            rwa [List.drop_succ_cons] at hj
        · rw [if_neg hd]
          constructor
          · intro h
            cases h
          · intro hall
            exfalso
            have h0 := hall 0
            rw [List.drop_zero] at h0
            subst hc
            cases rest with
            | nil => exact hd rfl
            | cons d rest' =>
                have hdd : d.isDigit = true :=
                  digitRun_head_true (Bool.eq_false_iff.mpr hd)
                rw [show hashDigit ('#' :: d :: rest') = ('#' == '#' && d.isDigit)
                  from rfl, hdd] at h0
                simp at h0
      · rw [if_neg hc]
        constructor
        · intro h j
          cases j with
          | zero =>
              rw [List.drop_zero]
              exact hashDigit_cons_false_of_ne hc
          | succ j =>
              rw [List.drop_succ_cons]
              exact (searchNumber_none_iff rest).mp h j
        · intro hall
          apply (searchNumber_none_iff rest).mpr
          intro j
          have hj := hall (j+1)
          rwa [List.drop_succ_cons] at hj

theorem searchNumber_some :
    ∀ (s : List Char) (n : List Char), searchNumber s = some n →
      ∃ r rest, s.drop r = '#' :: rest ∧ n = digitRun rest ∧ n ≠ []
        ∧ ∀ j, j < r → hashDigit (s.drop j) = false
  | [], n, h => by cases h
  | c :: restc, n, h => by
      simp only [searchNumber] at h
      by_cases hc : c = '#'
      · rw [if_pos hc] at h
        by_cases hd : (digitRun restc).isEmpty = true
        · rw [if_pos hd] at h
          obtain ⟨r, rest, h1, h2, h3, h4⟩ := searchNumber_some restc n h
          refine ⟨r + 1, rest, by rwa [List.drop_succ_cons], h2, h3, ?_⟩
          intro j hj
          cases j with
          | zero =>
              rw [List.drop_zero]
              subst hc
              exact hashDigit_cons_false_of_nondigit hd
          | succ j' =>
              rw [List.drop_succ_cons]
              exact h4 j' (by omega)
        · rw [if_neg hd] at h
          cases h
          subst hc
          refine ⟨0, restc, rfl, rfl, ?_, fun j hj => absurd hj (Nat.not_lt_zero j)⟩
          intro hnil
          apply hd
          rw [hnil]
          rfl
      · rw [if_neg hc] at h
        obtain ⟨r, rest, h1, h2, h3, h4⟩ := searchNumber_some restc n h
        refine ⟨r + 1, rest, by rwa [List.drop_succ_cons], h2, h3, ?_⟩
        intro j hj
        cases j with
        | zero =>
            rw [List.drop_zero]
            exact hashDigit_cons_false_of_ne hc
        | succ j' =>
            rw [List.drop_succ_cons]
            exact h4 j' (by omega)

theorem anchorAt_inv {t : List Char} (h : anchorAt t = true) :
    ∃ rest, t = ' ' :: '(' :: '#' :: rest ∧ (digitRun rest).isEmpty = false := by
  unfold anchorAt at h
  split at h
  · rename_i rest
    refine ⟨rest, rfl, ?_⟩
    have h1 := ((Bool.and_eq_true _ _).mp h).1
    rwa [Bool.not_eq_eq_eq_not, Bool.not_true] at h1
  · exact absurd h (by simp)

theorem searchNumber_isSome_of_anchor {s : List Char} {q : Nat}
    (h : anchorAt (s.drop q) = true) : searchNumber s ≠ none := by
  intro hnone
  have hall := (searchNumber_none_iff s).mp hnone
  obtain ⟨rest, heq, hne⟩ := anchorAt_inv h
  have h2 : s.drop (q + 2) = '#' :: rest := by
    have hdd : (s.drop q).drop 2 = s.drop (q + 2) := List.drop_drop 2 q s
    rw [← hdd, heq]
    rfl
  cases rest with
  | nil => simp [digitRun] at hne
  | cons d r' =>
      have hdd : d.isDigit = true := digitRun_head_true hne
      have hj := hall (q + 2)
      rw [h2, show hashDigit ('#' :: d :: r') = ('#' == '#' && d.isDigit) from rfl,
        hdd] at hj
      simp at hj

theorem takeWhile_append_all {p : Char → Bool} :
    ∀ (l₁ l₂ : List Char), (∀ a ∈ l₁, p a = true) →
      (l₁ ++ l₂).takeWhile p = l₁ ++ l₂.takeWhile p
  | [], _, _ => rfl
  | a :: l₁, l₂, h => by
      rw [List.cons_append, List.takeWhile_cons, if_pos (h a (by simp)),
        takeWhile_append_all l₁ l₂ (fun x hx => h x (by simp [hx]))]
      rfl

theorem takeWhile_ws_kind (k : AddKind) (X : List Char) :
    (kindWord k ++ X).takeWhile isPyWhitespace = [] := by
  cases k with
  | resource =>
      rw [show kindWord AddKind.resource ++ X = 'r' :: ("esource".toList ++ X) from rfl,
        List.takeWhile_cons, if_neg (by decide)]
  | service =>
      rw [show kindWord AddKind.service ++ X = 's' :: ("ervice".toList ++ X) from rfl,
        List.takeWhile_cons, if_neg (by decide)]

theorem takeWhile_ws_tok {tok : List Char} (htok : tok ≠ [])
    (htokc : ∀ c ∈ tok, isPyWhitespace c = false) (X : List Char) :
    (tok ++ X).takeWhile isPyWhitespace = [] := by
  cases tok with
  | nil => exact absurd rfl htok
  | cons c r =>
      rw [List.cons_append, List.takeWhile_cons,
        if_neg (by simp [htokc c (by simp)])]

theorem takeWhile_nonws_tok (tok R : List Char)
    (htokc : ∀ c ∈ tok, isPyWhitespace c = false) :
    (tok ++ '\n' :: R).takeWhile (fun c => !isPyWhitespace c) = tok := by
  rw [takeWhile_append_all tok _ (fun a ha => by rw [htokc a ha]; rfl),
    List.takeWhile_cons, if_neg (by decide), List.append_nil]

theorem resource_not_prefix_service (X : List Char) :
    ("resource".toList).isPrefixOf ("service".toList ++ X) = false := rfl

theorem service_not_prefix_resource (X : List Char) :
    ("service".toList).isPrefixOf ("resource".toList ++ X) = false := rfl

theorem matchAdditionAt_render_hit (k : AddKind) (tok R : List Char)
    (htok : tok ≠ []) (htokc : ∀ c ∈ tok, isPyWhitespace c = false) :
    matchAdditionAt (kindWord k)
        ('[' :: '+' :: ']' :: ' ' :: (kindWord k ++ ' ' :: (tok ++ '\n' :: R)))
      = some (tok, 3 + 1 + (kindWord k).length + 1 + tok.length) := by
  have hws1 : (' ' :: (kindWord k ++ ' ' :: (tok ++ '\n' :: R))).takeWhile isPyWhitespace
      = [' '] := by
    rw [List.takeWhile_cons, if_pos (by decide), takeWhile_ws_kind]
  have hpre : (kindWord k).isPrefixOf
      (kindWord k ++ (' ' :: (tok ++ '\n' :: R))) = true :=
    List.isPrefixOf_iff_prefix.mpr (List.prefix_append _ _)
  have hdropkw : (kindWord k ++ (' ' :: (tok ++ '\n' :: R))).drop (kindWord k).length
      = ' ' :: (tok ++ '\n' :: R) := List.drop_left _ _
  have hws2 : (' ' :: (tok ++ '\n' :: R)).takeWhile isPyWhitespace = [' '] := by
    rw [List.takeWhile_cons, if_pos (by decide), takeWhile_ws_tok htok htokc]
  have htokr := takeWhile_nonws_tok tok R htokc
  obtain ⟨c0, tok', rfl⟩ : ∃ c0 tok', tok = c0 :: tok' := by
    cases tok with
    | nil => exact absurd rfl htok
    | cons c0 tok' => exact ⟨c0, tok', rfl⟩
  simp only [matchAdditionAt, hws1, List.isEmpty_cons, Bool.false_eq_true, if_false,
    List.length_cons, List.length_nil, List.drop_succ_cons, List.drop_zero, hpre,
    if_true, hdropkw, hws2, htokr]

theorem matchAdditionAt_render_miss (kw : List Char) (k : AddKind) (tok R : List Char)
    (hne : kw.isPrefixOf (kindWord k ++ (' ' :: (tok ++ '\n' :: R))) = false) :
    matchAdditionAt kw
        ('[' :: '+' :: ']' :: ' ' :: (kindWord k ++ ' ' :: (tok ++ '\n' :: R)))
      = none := by
  have hws1 : (' ' :: (kindWord k ++ ' ' :: (tok ++ '\n' :: R))).takeWhile isPyWhitespace
      = [' '] := by
    rw [List.takeWhile_cons, if_pos (by decide), takeWhile_ws_kind]
  simp only [matchAdditionAt, hws1, List.isEmpty_cons, Bool.false_eq_true, if_false,
    List.length_cons, List.length_nil, List.drop_succ_cons, List.drop_zero, hne]

theorem matchAdditionAt_none_of_head {kw : List Char} {c : Char} {r : List Char}
    (hc : c ≠ '[') : matchAdditionAt kw (c :: r) = none := by
  unfold matchAdditionAt
  split
  · rename_i r1 heq
    injection heq with h1 _
    exact absurd h1 hc
  · rfl

theorem additionScan_skip (kw : List Char) :
    ∀ (pre t : List Char) (fuel : Nat),
      (∀ c ∈ pre, c ≠ '[') → pre.length + t.length ≤ fuel →
      additionScan kw fuel (pre ++ t) = additionScan kw (fuel - pre.length) t
  | [], t, fuel, _, _ => by
      rw [List.nil_append]
      simp
  | c :: pre, t, fuel, hn, hf => by
      obtain ⟨f, rfl⟩ : ∃ f, fuel = f + 1 :=
        ⟨fuel - 1, by simp [List.length_cons] at hf; omega⟩
      rw [List.cons_append]
      show additionScan kw (f + 1) (c :: (pre ++ t)) = _
      simp only [additionScan, matchAdditionAt_none_of_head (hn c (by simp))]
      rw [additionScan_skip kw pre t f (fun x hx => hn x (by simp [hx]))
        (by simp [List.length_cons] at hf; omega)]
      congr 1
      simp [List.length_cons]

theorem kindWord_no_bracket (k : AddKind) : ∀ c ∈ kindWord k, c ≠ '[' := by
  cases k <;> decide

theorem additionScan_render (kw : List Char)
    (hkw : kw = kindWord .resource ∨ kw = kindWord .service) :
    ∀ (entries : List (AddKind × List Char)) (fuel : Nat),
      goodEntries entries → (renderAdditions entries).length ≤ fuel →
      additionScan kw fuel (renderAdditions entries)
        = entries.filterMap (fun e => if kindWord e.1 = kw then some e.2 else none)
  | [], fuel, _, _ => by cases fuel <;> rfl
  | (k, tok) :: rest, fuel, hg, hf => by
      have hmem : (k, tok) ∈ (k, tok) :: rest := by simp
      have htok : tok ≠ [] := (hg (k, tok) hmem).1
      have htokc : ∀ c ∈ tok, isPyWhitespace c = false :=
        fun c hc => ((hg (k, tok) hmem).2 c hc).1
      have htokb : ∀ c ∈ tok, c ≠ '[' :=
        fun c hc => ((hg (k, tok) hmem).2 c hc).2
      have hgrest : goodEntries rest := fun e he => hg e (List.mem_cons_of_mem _ he)
      have hrender : renderAdditions ((k, tok) :: rest)
          = '[' :: '+' :: ']' :: ' '
              :: (kindWord k ++ ' ' :: (tok ++ '\n' :: renderAdditions rest)) := rfl
      have hlen : (renderAdditions ((k, tok) :: rest)).length
          = 6 + (kindWord k).length + tok.length + (renderAdditions rest).length := by
        rw [hrender]
        simp [List.length_append, List.length_cons]
        omega
      obtain ⟨f, rfl⟩ : ∃ f, fuel = f + 1 := ⟨fuel - 1, by rw [hlen] at hf; omega⟩
      rw [hlen] at hf
      rw [hrender]
      show additionScan kw (f + 1)
          ('[' :: '+' :: ']' :: ' '
            :: (kindWord k ++ ' ' :: (tok ++ '\n' :: renderAdditions rest))) = _
      by_cases hk : kindWord k = kw
      · subst hk
        simp only [additionScan,
          matchAdditionAt_render_hit k tok (renderAdditions rest) htok htokc]
        have hsplit : '[' :: '+' :: ']' :: ' '
              :: (kindWord k ++ ' ' :: (tok ++ '\n' :: renderAdditions rest))
            = ('[' :: '+' :: ']' :: ' ' :: (kindWord k ++ ' ' :: tok))
              ++ ('\n' :: renderAdditions rest) := by
          simp [List.append_assoc]
        have hplen : ('[' :: '+' :: ']' :: ' ' :: (kindWord k ++ ' ' :: tok)).length
            = 3 + 1 + (kindWord k).length + 1 + tok.length := by
          simp [List.length_append, List.length_cons]
          omega
        rw [hsplit, List.drop_left' hplen]
        rw [show ('\n' :: renderAdditions rest) = ['\n'] ++ renderAdditions rest
          from rfl]
        rw [additionScan_skip (kindWord k) ['\n'] (renderAdditions rest) f
          (by intro c hc; simp at hc; subst hc; decide) (by simp; omega)]
        rw [additionScan_render (kindWord k) hkw rest _ hgrest (by simp; omega)]
        rw [List.filterMap_cons]
        simp
      · have hne : kw.isPrefixOf
            (kindWord k ++ (' ' :: (tok ++ '\n' :: renderAdditions rest))) = false := by
          rcases hkw with rfl | rfl
          · cases k with
            | resource => exact absurd rfl hk
            | service => exact resource_not_prefix_service _
          · cases k with
            | resource => exact service_not_prefix_resource _
            | service => exact absurd rfl hk
        simp only [additionScan,
          matchAdditionAt_render_miss kw k tok (renderAdditions rest) hne]
        have hsplit : '+' :: ']' :: ' '
              :: (kindWord k ++ ' ' :: (tok ++ '\n' :: renderAdditions rest))
            = ('+' :: ']' :: ' ' :: (kindWord k ++ ' ' :: (tok ++ ['\n'])))
              ++ renderAdditions rest := by
          simp [List.append_assoc]
        have hpre2 : ∀ c ∈ ('+' :: ']' :: ' '
            :: (kindWord k ++ ' ' :: (tok ++ ['\n']))), c ≠ '[' := by
          intro c hc
          simp only [List.mem_cons, List.mem_append, List.mem_singleton] at hc
          rcases hc with rfl | rfl | rfl | hck | rfl | hct | rfl | h0
          · decide
          · decide
          · decide
          · exact kindWord_no_bracket k c hck
          · decide
          · exact htokb c hct
          · decide
          · exact absurd h0 (List.not_mem_nil c)
        have hplen2 : ('+' :: ']' :: ' '
            :: (kindWord k ++ ' ' :: (tok ++ ['\n']))).length
            = 5 + (kindWord k).length + tok.length := by
          simp [List.length_append, List.length_cons]
          omega
        rw [hsplit, additionScan_skip kw _ _ f hpre2 (by rw [hplen2]; omega)]
        rw [additionScan_render kw hkw rest _ hgrest (by rw [hplen2]; omega)]
        rw [List.filterMap_cons]
        rw [if_neg hk]

theorem relatedScan_sound :
    ∀ (fuel : Nat) (s : List Char) (ds : List Char), ds ∈ relatedScan fuel s →
      ∃ i n, matchClosingAt (s.drop i) = some (ds, n)
  | 0, _, _, h => absurd h (List.not_mem_nil _)
  | _ + 1, [], _, h => absurd h (List.not_mem_nil _)
  | fuel + 1, c :: rest, ds, h => by
      simp only [relatedScan] at h
      cases hm : matchClosingAt (c :: rest) with
      | some p =>
          obtain ⟨d0, n0⟩ := p
          rw [hm] at h
          rcases List.mem_cons.mp h with rfl | h2
          · exact ⟨0, n0, by rw [List.drop_zero]; exact hm⟩
          · obtain ⟨i, n, hi⟩ := relatedScan_sound fuel _ ds h2
            refine ⟨n0 + i, n, ?_⟩
            rw [← List.drop_drop]
            exact hi
      | none =>
          rw [hm] at h
          obtain ⟨i, n, hi⟩ := relatedScan_sound fuel rest ds h
          refine ⟨i + 1, n, ?_⟩
          rw [List.drop_succ_cons]
          exact hi

theorem matchClosingAt_inv {t ds : List Char} {n : Nat}
    (h : matchClosingAt t = some (ds, n)) :
    ∃ v ∈ verbCandidates, ∃ rest2,
      ((t.take v.length).map Char.toLower = v)
      ∧ t.drop v.length = ' ' :: '#' :: rest2
      ∧ ds = digitRun rest2 ∧ ds ≠ []
      ∧ n = v.length + 2 + ds.length := by
  obtain ⟨v, hv, htv⟩ := List.exists_of_findSome?_eq_some h
  unfold tryVerb at htv
  by_cases hci : ciStarts v t = true
  · rw [if_pos hci] at htv
    split at htv
    · rename_i rest2 heq
      by_cases hd : (digitRun rest2).isEmpty = true
      · rw [if_pos hd] at htv
        cases htv
      · rw [if_neg hd] at htv
        cases htv
        refine ⟨v, hv, rest2, ?_, heq, rfl, ?_, rfl⟩
        · unfold ciStarts at hci
          exact eq_of_beq hci
        · intro hk
          apply hd
          rw [hk]
          rfl
    · cases htv
  · rw [if_neg hci] at htv
    cases htv

theorem matchClosingAt_nil : matchClosingAt [] = none := by decide

theorem matchClosingAt_pos {t ds : List Char} {n : Nat}
    (h : matchClosingAt t = some (ds, n)) : 1 ≤ n := by
  obtain ⟨v, _, rest2, _, _, _, _, hn⟩ := matchClosingAt_inv h
  omega

theorem matchClosingAt_none_iff (t : List Char) :
    matchClosingAt t = none
      ↔ ∀ v ∈ verbCandidates,
          ¬((t.take v.length).map Char.toLower = v
            ∧ ∃ rest2, t.drop v.length = ' ' :: '#' :: rest2
              ∧ digitRun rest2 ≠ []) := by
  unfold matchClosingAt
  rw [List.findSome?_eq_none_iff]
  constructor
  · rintro h v hv ⟨hci, rest2, hdrop, hds⟩
    have hci2 : ciStarts v t = true := by
      unfold ciStarts
      exact beq_iff_eq.mpr hci
    have htv2 : tryVerb t v
        = some (digitRun rest2, v.length + 2 + (digitRun rest2).length) := by
      unfold tryVerb
      rw [if_pos hci2, hdrop]
      show (if (digitRun rest2).isEmpty = true then none
          else some (digitRun rest2, v.length + 2 + (digitRun rest2).length))
        = some (digitRun rest2, v.length + 2 + (digitRun rest2).length)
      rw [if_neg (by simp [List.isEmpty_iff, hds])]
    rw [h v hv] at htv2
    cases htv2
  · intro h v hv
    unfold tryVerb
    by_cases hci : ciStarts v t = true
    · rw [if_pos hci]
      split
      · rename_i rest2 heq
        by_cases hd : (digitRun rest2).isEmpty = true
        · rw [if_pos hd]
        · exfalso
          apply h v hv
          refine ⟨?_, rest2, heq, ?_⟩
          · unfold ciStarts at hci
            exact eq_of_beq hci
          · intro hk
            exact hd (by rw [hk]; rfl)
      · rfl
    · rw [if_neg hci]

theorem closingMatches_shift {c : Char} {rest : List Char}
    {out : List (List Char)} (h0 : matchClosingAt (c :: rest) = none)
    (h : ClosingMatches rest out) : ClosingMatches (c :: rest) out := by
  cases h with
  | nil _ hall =>
      apply ClosingMatches.nil
      intro i
      cases i with
      | zero => exact h0
      | succ j =>
          rw [List.drop_succ_cons]
          exact hall j
  | cons _ i n ds out0 hmin hmatch hrec =>
      apply ClosingMatches.cons (c :: rest) (i + 1) n ds out0
      · intro j hj
        cases j with
        | zero => exact h0
        | succ j' =>
            rw [List.drop_succ_cons]
            exact hmin j' (by omega)
      · rw [List.drop_succ_cons]
        exact hmatch
      · rw [show i + 1 + n = (i + n) + 1 by omega, List.drop_succ_cons]
        exact hrec

theorem closingMatches_relatedScan :
    ∀ (fuel : Nat) (s : List Char), s.length ≤ fuel →
      ClosingMatches s (relatedScan fuel s)
  | 0, s, hf => by
      have hs : s = [] := List.length_eq_zero.mp (by omega)
      subst hs
      apply ClosingMatches.nil
      intro i
      rw [List.drop_nil]
      exact matchClosingAt_nil
  | _ + 1, [], _ => by
      apply ClosingMatches.nil
      intro i
      rw [List.drop_nil]
      exact matchClosingAt_nil
  | fuel + 1, c :: rest, hf => by
      show ClosingMatches (c :: rest) (relatedScan (fuel + 1) (c :: rest))
      simp only [relatedScan]
      cases hm : matchClosingAt (c :: rest) with
      | some p =>
          obtain ⟨ds, n⟩ := p
          apply ClosingMatches.cons (c :: rest) 0 n ds
            (relatedScan fuel ((c :: rest).drop n))
          · intro j hj
            exact absurd hj (Nat.not_lt_zero j)
          · rw [List.drop_zero]
            exact hm
          · rw [Nat.zero_add]
            apply closingMatches_relatedScan fuel
            have hpos : 1 ≤ n := matchClosingAt_pos hm
            rw [List.length_drop]
            simp only [List.length_cons] at hf ⊢
            omega
      | none =>
          apply closingMatches_shift hm
          apply closingMatches_relatedScan fuel
          simp [List.length_cons] at hf
          omega

theorem closingMatches_unique {s : List Char} {out1 : List (List Char)}
    (h1 : ClosingMatches s out1) :
    ∀ {out2 : List (List Char)}, ClosingMatches s out2 → out1 = out2 := by
  induction h1 with
  | nil t hall =>
      intro out2 h2
      cases h2 with
      | nil _ _ => rfl
      | cons _ i n ds out hmin hmatch hrec =>
          rw [hall i] at hmatch
          cases hmatch
  | cons t i n ds out hmin hmatch hrec ih =>
      intro out2 h2
      cases h2 with
      | nil _ hall =>
          rw [hall i] at hmatch
          cases hmatch
      | cons _ i' n' ds' out' hmin' hmatch' hrec' =>
          have hii : i = i' := by
            by_contra hne
            rcases Nat.lt_or_ge i i' with hlt | hge
            · rw [hmin' i hlt] at hmatch
              cases hmatch
            · have hlt' : i' < i := by omega
              rw [hmin i' hlt'] at hmatch'
              cases hmatch'
          subst hii
          rw [hmatch] at hmatch'
          cases hmatch'
          rw [ih hrec']

theorem prLE_trans : ∀ a b c : PullRequest,
    prLE a b = true → prLE b c = true → prLE a c = true := by
  intro a b c hab hbc
  unfold prLE at *
  exact decide_eq_true (Nat.le_trans (of_decide_eq_true hab) (of_decide_eq_true hbc))

theorem prLE_total : ∀ a b : PullRequest, (prLE a b || prLE b a) = true := by
  intro a b
  unfold prLE
  rcases Nat.le_total (category_order a.category) (category_order b.category) with h | h
  · rw [decide_eq_true h]
    rfl
  · rw [decide_eq_true h]
    simp

/-! ## Claim theorems about the Release Parser -/

/-- Claim C1 (corrected): an item is emitted exactly when its text
contains a `" (#<digits>)"` occurrence somewhere (not necessarily
trailing, and the search is not anchored at the start of the text); the
title is the part of the line of the FIRST such occurrence that lies
before it, and the identifier is the maximal digit run after the FIRST
`#`-followed-by-a-digit occurrence anywhere in the text — not the digits
of the trailing group. -/
theorem parseItem_first_hash (s : List Char) :
    (parseItem s = none ↔ ∀ q, anchorAt (s.drop q) = false)
    ∧ (∀ t n, parseItem s = some (t, n) →
        (∃ q, anchorAt (s.drop q) = true
          ∧ (∀ j, j < q → anchorAt (s.drop j) = false)
          ∧ t = lastLineOf (s.take q))
        ∧ (∃ r rest, s.drop r = '#' :: rest ∧ n = digitRun rest ∧ n ≠ []
            ∧ ∀ j, j < r → hashDigit (s.drop j) = false)) := by
  constructor
  · unfold parseItem searchTitle
    constructor
    · intro h q
      cases hf : firstPos anchorAt s with
      | none => exact (firstPos_none_iff anchorAt s).mp hf q
      | some q0 =>
          exfalso
          rw [hf] at h
          have hq0 := (firstPos_some anchorAt s q0 hf).1
          have hsn : searchNumber s ≠ none := searchNumber_isSome_of_anchor hq0
          cases hsn2 : searchNumber s with
          | none => exact hsn hsn2
          | some nn =>
              rw [hsn2] at h
              cases h
    · intro hall
      have hf : firstPos anchorAt s = none :=
        (firstPos_none_iff anchorAt s).mpr hall
      rw [hf]
  · intro t n h
    unfold parseItem at h
    cases hst : searchTitle s with
    | none =>
        rw [hst] at h
        cases hsn : searchNumber s <;> rw [hsn] at h <;> cases h
    | some t0 =>
        cases hsn : searchNumber s with
        | none =>
            rw [hst, hsn] at h
            cases h
        | some n0 =>
            rw [hst, hsn] at h
            cases h
            constructor
            · unfold searchTitle at hst
              cases hf : firstPos anchorAt s with
              | none =>
                  rw [hf] at hst
                  cases hst
              | some q =>
                  rw [hf] at hst
                  cases hst
                  obtain ⟨h1, h2⟩ := firstPos_some anchorAt s q hf
                  exact ⟨q, h1, h2, rfl⟩
            · exact searchNumber_some s n hsn

/-- Witness for C1 on the concrete item text of the claim. -/
theorem parseItem_first_hash_witness :
    parseItem ("fix #5 crash (#123)".toList)
      = some ("fix #5 crash".toList, "5".toList)
    ∧ ((∃ q, anchorAt (("fix #5 crash (#123)".toList).drop q) = true
        ∧ (∀ j, j < q → anchorAt (("fix #5 crash (#123)".toList).drop j) = false)
        ∧ "fix #5 crash".toList = lastLineOf (("fix #5 crash (#123)".toList).take q))
      ∧ (∃ r rest, ("fix #5 crash (#123)".toList).drop r = '#' :: rest
          ∧ "5".toList = digitRun rest ∧ "5".toList ≠ []
          ∧ ∀ j, j < r → hashDigit (("fix #5 crash (#123)".toList).drop j) = false)) :=
  ⟨by decide,
    (parseItem_first_hash ("fix #5 crash (#123)".toList)).2
      ("fix #5 crash".toList) ("5".toList) (by decide)⟩

/-- Counterexample to C1 as stated: for the item text
'fix #5 crash (#123)' the claim predicts the identifier '123' (the digit
sequence of the trailing parenthesized group), but the extractor emits
'5' — the digits following the first `#` anywhere in the text. -/
theorem sectionPRs_not_trailing_group :
    sectionPRs
      [.heading 3 ("Features".toList), .list [("fix #5 crash (#123)".toList)]] 0
      = [("fix #5 crash".toList, "5".toList)]
    ∧ "5".toList ≠ "123".toList := ⟨by decide, by decide⟩

/-- Claim C2 (corrected): the alpha context of a Features or Bug Fixes
section at index `i` holds exactly when SOME level-2 "Alpha modules"
heading precedes it anywhere in the document — `find_previous` does not
stop at the nearest level-2 heading, so the taint does not end at the
next level-2 heading.  Non-L1 entries are classified alpha exactly under
that condition. -/
theorem alphaBefore_any_preceding (d : List Event) (i : Nat)
    (pr : List Char × List Char) (hl1 : l1Marker.isPrefixOf pr.1 = false) :
    ((classifyFeature (alphaBefore d i) pr).category
        = (if alphaBefore d i then "alpha feature" else "feature"))
    ∧ ((classifyBugFix (alphaBefore d i) pr).category
        = (if alphaBefore d i then "alpha bug fix" else "bug fix"))
    ∧ (alphaBefore d i = true
        ↔ ∃ j, j < i ∧ ∃ e, d[j]? = some e
            ∧ isHeadingMatch 2 ("Alpha modules".toList) e = true) := by
  refine ⟨?_, ?_, alphaBefore_iff d i⟩
  · cases ha : alphaBefore d i with
    | false => simp [classifyFeature, hl1]
    | true => simp [classifyFeature, hl1]
  · cases ha : alphaBefore d i with
    | false => simp [classifyBugFix]
    | true => simp [classifyBugFix]

/-- Witness for C2 at a concrete section index and document. -/
theorem alphaBefore_any_preceding_witness :
    l1Marker.isPrefixOf ("A".toList) = false
    ∧ (((classifyFeature
          (alphaBefore
            [.heading 2 ("Alpha modules".toList), .heading 2 ("Other stuff".toList),
             .heading 3 ("Features".toList)] 2)
          (("A".toList, "1".toList))).category
        = (if alphaBefore
              [.heading 2 ("Alpha modules".toList), .heading 2 ("Other stuff".toList),
               .heading 3 ("Features".toList)] 2
            then "alpha feature" else "feature"))
      ∧ (((classifyBugFix
            (alphaBefore
              [.heading 2 ("Alpha modules".toList), .heading 2 ("Other stuff".toList),
               .heading 3 ("Features".toList)] 2)
            (("A".toList, "1".toList))).category
          = (if alphaBefore
                [.heading 2 ("Alpha modules".toList), .heading 2 ("Other stuff".toList),
                 .heading 3 ("Features".toList)] 2
              then "alpha bug fix" else "bug fix"))
        ∧ (alphaBefore
              [.heading 2 ("Alpha modules".toList), .heading 2 ("Other stuff".toList),
               .heading 3 ("Features".toList)] 2 = true
            ↔ ∃ j, j < 2 ∧ ∃ e,
                [Event.heading 2 ("Alpha modules".toList), .heading 2 ("Other stuff".toList),
                 .heading 3 ("Features".toList)][j]? = some e
                ∧ isHeadingMatch 2 ("Alpha modules".toList) e = true))) :=
  ⟨by decide,
    alphaBefore_any_preceding
      [.heading 2 ("Alpha modules".toList), .heading 2 ("Other stuff".toList),
       .heading 3 ("Features".toList)] 2 (("A".toList, "1".toList)) (by decide)⟩

/-- Counterexample to C2 as stated: with an "Alpha modules" level-2
heading followed by a DIFFERENT level-2 heading and then a Features
section, the claim predicts category "feature" (the taint should end at
the next level-2 heading), but the code still classifies the item as
"alpha feature". -/
theorem alpha_taint_outlives_next_h2 :
    get_pull_requests_from_release
      [.heading 2 ("Alpha modules".toList), .heading 2 ("Other stuff".toList),
       .heading 3 ("Features".toList), .list [("A (#1)".toList)]]
      = [⟨"alpha feature", "A".toList, "1".toList⟩]
    ∧ ("alpha feature" : String) ≠ "feature" := by
  constructor
  · show (collectedEntries _).mergeSort prLE = _
    have h : collectedEntries
        [.heading 2 ("Alpha modules".toList), .heading 2 ("Other stuff".toList),
         .heading 3 ("Features".toList), .list [("A (#1)".toList)]]
        = [⟨"alpha feature", "A".toList, "1".toList⟩] := by decide
    rw [h]
    exact List.mergeSort_singleton _
  · decide

/-- Claim C3 (corrected): the entries of a section come from the first
list event after the heading in plain document order — intervening
headings are NOT a boundary.  `firstListAfter` returns `none` exactly
when no list at all follows, and otherwise returns the nearest following
list (nothing between is a list), whose parsed items become the
section's entries. -/
theorem firstListAfter_next_list (d : List Event) (i : Nat) :
    (firstListAfter d i = none ↔ ∀ j, i < j → ∀ items, d[j]? ≠ some (.list items))
    ∧ (∀ items, firstListAfter d i = some items →
        ∃ j, i < j ∧ d[j]? = some (.list items)
          ∧ (∀ k, i < k → k < j → ∀ its, d[k]? ≠ some (.list its))
          ∧ sectionPRs d i = items.filterMap (fun it => parseItem (pyStrip it))) := by
  constructor
  · unfold firstListAfter
    rw [List.findSome?_eq_none_iff]
    constructor
    · intro h j hj items hc
      have hm : Event.list items ∈ d.drop (i+1) := by
        apply List.getElem?_mem (n := j - (i+1))
        rw [List.getElem?_drop, show i + 1 + (j - (i+1)) = j by omega]
        exact hc
      have := h _ hm
      simp [listItems?] at this
    · intro h e he
      obtain ⟨n, hn⟩ := List.getElem?_of_mem he
      rw [List.getElem?_drop] at hn
      cases e with
      | heading lvl t => rfl
      | list items => exact absurd hn (h (i + 1 + n) (by omega) items)
  · intro items h
    unfold firstListAfter at h
    obtain ⟨k, hk, hke, hkm⟩ := findSome?_listItems_split _ items h
    rw [List.getElem?_drop] at hke
    refine ⟨i + 1 + k, by omega, hke, ?_, ?_⟩
    · intro m hm1 hm2 its hc
      have hm' : (d.drop (i+1))[m - (i+1)]? = some (.list its) := by
        rw [List.getElem?_drop, show i + 1 + (m - (i+1)) = m by omega]
        exact hc
      exact hkm (m - (i+1)) (by omega) its hm'
    · unfold sectionPRs firstListAfter
      rw [h]

/-- Witness for C3 at a concrete heading with an intervening heading. -/
theorem firstListAfter_next_list_witness :
    firstListAfter
      [.heading 3 ("Features".toList), .heading 3 ("Bug Fixes".toList),
       .list [("A (#1)".toList)]] 0 = some [("A (#1)".toList)]
    ∧ ∃ j, 0 < j
        ∧ [Event.heading 3 ("Features".toList), .heading 3 ("Bug Fixes".toList),
           .list [("A (#1)".toList)]][j]? = some (.list [("A (#1)".toList)])
        ∧ (∀ k, 0 < k → k < j → ∀ its,
            [Event.heading 3 ("Features".toList), .heading 3 ("Bug Fixes".toList),
             .list [("A (#1)".toList)]][k]? ≠ some (.list its))
        ∧ sectionPRs
            [.heading 3 ("Features".toList), .heading 3 ("Bug Fixes".toList),
             .list [("A (#1)".toList)]] 0
          = [("A (#1)".toList)].filterMap (fun it => parseItem (pyStrip it)) :=
  ⟨by decide,
    (firstListAfter_next_list
      [.heading 3 ("Features".toList), .heading 3 ("Bug Fixes".toList),
       .list [("A (#1)".toList)]] 0).2 [("A (#1)".toList)] (by decide)⟩

/-- Counterexample to C3 as stated: a Features heading immediately
followed by another heading and only then by a list does NOT yield the
empty item list — the list's items are attributed both to the Features
heading and to the Bug Fixes heading. -/
theorem list_attributed_through_heading :
    sectionPRs
      [.heading 3 ("Features".toList), .heading 3 ("Bug Fixes".toList),
       .list [("A (#1)".toList)]] 0 = [("A".toList, "1".toList)]
    ∧ get_pull_requests_from_release
        [.heading 3 ("Features".toList), .heading 3 ("Bug Fixes".toList),
         .list [("A (#1)".toList)]]
      = [⟨"feature", "A".toList, "1".toList⟩, ⟨"bug fix", "A".toList, "1".toList⟩] := by
  constructor
  · decide
  · show (collectedEntries _).mergeSort prLE = _
    have h : collectedEntries
        [.heading 3 ("Features".toList), .heading 3 ("Bug Fixes".toList),
         .list [("A (#1)".toList)]]
        = [⟨"feature", "A".toList, "1".toList⟩, ⟨"bug fix", "A".toList, "1".toList⟩] := by
      decide
    rw [h]
    exact List.mergeSort_of_sorted (by decide)

/-- Claim C6 (corrected): full characterization of the scan.  The output
of `get_related_issues` is EXACTLY the list described by the
non-overlapping left-to-right scan `ClosingMatches`: it contains, in
order of first character position, the digit group of EVERY match, each
match taken at the leftmost position at or after the previous match's
end (duplicates preserved) — existence plus uniqueness of the
description pin the output down completely.  Moreover every returned
identifier is the maximal digit run of an occurrence of a verb
inflection of `close[sd]?|fixe?[sd]?|resolve[sd]?` (case-insensitively)
followed by EXACTLY ONE space character and `#`, and a match starts at a
position IFF such an occurrence starts there — so a tab, a newline, or a
run of several spaces between the verb and `#<digits>` is rejected. -/
theorem related_issues_scan_characterization (s : List Char) :
    ClosingMatches s (get_related_issues s)
    ∧ (∀ out, ClosingMatches s out → out = get_related_issues s)
    ∧ (∀ ds, ds ∈ get_related_issues s →
        ∃ i, ∃ v ∈ verbCandidates, ∃ rest2,
          (((s.drop i).take v.length).map Char.toLower = v)
          ∧ (s.drop i).drop v.length = ' ' :: '#' :: rest2
          ∧ ds = digitRun rest2 ∧ ds ≠ [])
    ∧ (∀ t : List Char, matchClosingAt t = none
        ↔ ∀ v ∈ verbCandidates,
            ¬((t.take v.length).map Char.toLower = v
              ∧ ∃ rest2, t.drop v.length = ' ' :: '#' :: rest2
                ∧ digitRun rest2 ≠ [])) := by
  have hex : ClosingMatches s (get_related_issues s) :=
    closingMatches_relatedScan s.length s (Nat.le_refl _)
  refine ⟨hex, fun out hout => closingMatches_unique hout hex, ?_,
    matchClosingAt_none_iff⟩
  intro ds h
  obtain ⟨i, n, hi⟩ := relatedScan_sound s.length s ds h
  obtain ⟨v, hv, rest2, h1, h2, h3, h4, _⟩ := matchClosingAt_inv hi
  exact ⟨i, v, hv, rest2, h1, h2, h3, h4⟩

/-- Witness for C6 on a concrete closing reference. -/
theorem related_issues_scan_characterization_witness :
    "12".toList ∈ get_related_issues ("fixes #12".toList)
    ∧ ∃ i, ∃ v ∈ verbCandidates, ∃ rest2,
        ((("fixes #12".toList).drop i).take v.length).map Char.toLower = v
        ∧ (("fixes #12".toList).drop i).drop v.length = ' ' :: '#' :: rest2
        ∧ "12".toList = digitRun rest2 ∧ "12".toList ≠ [] :=
  ⟨by decide,
    (related_issues_scan_characterization ("fixes #12".toList)).2.2.1
      ("12".toList) (by decide)⟩

/-- Counterexample to C6 as stated: the claim predicts the identifier
"12" for a tab and for a double space between the verb and `#12`, but
the scan accepts only the literal single space. -/
theorem related_issue_tab_rejected :
    get_related_issues ("fixes\t#12".toList) = []
    ∧ get_related_issues ("fixes  #12".toList) = []
    ∧ get_related_issues ("fixes #12".toList) = ["12".toList] :=
  ⟨by decide, by decide, by decide⟩

/-- Claim C8 (confirmed): on any sequence of `[+] resource <token>` /
`[+] service <token>` lines, however interleaved, `get_l1_update` returns
all resource tokens first in document order, then all service tokens in
document order — two independent passes concatenated, duplicates
preserved; empty input yields the empty sequence, and the spec's concrete
example evaluates as stated. -/
theorem l1_update_two_pass (entries : List (AddKind × List Char))
    (hg : goodEntries entries) :
    (get_l1_update (renderAdditions entries)
      = (entries.filterMap (fun e =>
            if kindWord e.1 = "resource".toList then some e.2 else none))
        ++ (entries.filterMap (fun e =>
            if kindWord e.1 = "service".toList then some e.2 else none)))
    ∧ get_l1_update [] = ([] : List (List Char))
    ∧ get_l1_update ("[+] resource R1 [+] resource R1 [+] service S1".toList)
      = ["R1".toList, "R1".toList, "S1".toList] := by
  refine ⟨?_, rfl, by decide⟩
  unfold get_l1_update
  rw [additionScan_render ("resource".toList) (Or.inl rfl) entries _ hg
      (Nat.le_refl _),
    additionScan_render ("service".toList) (Or.inr rfl) entries _ hg
      (Nat.le_refl _)]

/-- Witness for C8 on the spec's duplicate-preserving example, rendered
as one line per addition. -/
theorem l1_update_two_pass_witness :
    goodEntries
      [(.resource, "R1".toList), (.resource, "R1".toList), (.service, "S1".toList)]
    ∧ get_l1_update (renderAdditions
        [(.resource, "R1".toList), (.resource, "R1".toList), (.service, "S1".toList)])
      = ["R1".toList, "R1".toList, "S1".toList] :=
  ⟨by unfold goodEntries; decide, by
    rw [(l1_update_two_pass
      [(.resource, "R1".toList), (.resource, "R1".toList), (.service, "S1".toList)]
      (by unfold goodEntries; decide)).1]
    decide⟩

/-- Claim C7 (confirmed): the returned sequence is the stable sort of the
collected entries (all Features entries in extraction order, then all
Bug Fixes entries in extraction order) by the fixed category rank: the
output is sorted by rank, is a permutation of the collected entries, and
every per-category subsequence is preserved verbatim. -/
theorem release_sort_stable (d : List Event) :
    (category_order "feature" = 1 ∧ category_order "L1" = 2
      ∧ category_order "bug fix" = 3 ∧ category_order "alpha feature" = 4
      ∧ category_order "alpha bug fix" = 5)
    ∧ (get_pull_requests_from_release d).Pairwise (fun a b => prLE a b = true)
    ∧ List.Perm (get_pull_requests_from_release d) (collectedEntries d)
    ∧ ∀ c : String,
        (get_pull_requests_from_release d).filter (fun x => x.category == c)
          = (collectedEntries d).filter (fun x => x.category == c) := by
  refine ⟨by decide, List.sorted_mergeSort prLE_trans prLE_total _,
    List.mergeSort_perm _ _, ?_⟩
  intro c
  have hA : ((collectedEntries d).filter (fun x => x.category == c)).Pairwise
      (fun a b => prLE a b = true) := by
    apply List.pairwise_of_forall_mem_list
    intro a ha b hb
    have hac : a.category = c := by simpa using (List.mem_filter.mp ha).2
    have hbc : b.category = c := by simpa using (List.mem_filter.mp hb).2
    unfold prLE
    rw [hac, hbc]
    exact decide_eq_true (Nat.le_refl _)
  have hsub : List.Sublist ((collectedEntries d).filter (fun x => x.category == c))
      ((collectedEntries d).mergeSort prLE) :=
    List.sublist_mergeSort prLE_trans prLE_total hA (List.filter_sublist _)
  have hid : ((collectedEntries d).filter (fun x => x.category == c)).filter
        (fun x => x.category == c)
      = (collectedEntries d).filter (fun x => x.category == c) :=
    List.filter_eq_self.mpr (fun a ha => (List.mem_filter.mp ha).2)
  have hsub2 : List.Sublist ((collectedEntries d).filter (fun x => x.category == c))
      (((collectedEntries d).mergeSort prLE).filter (fun x => x.category == c)) := by
    have hf := hsub.filter (fun x => x.category == c)
    rwa [hid] at hf
  have hperm : List.Perm (((collectedEntries d).mergeSort prLE).filter
        (fun x => x.category == c))
      ((collectedEntries d).filter (fun x => x.category == c)) :=
    (List.mergeSort_perm _ _).filter _
  exact (hsub2.eq_of_length hperm.length_eq.symm).symm

end GRS
